import Mathlib

/-!
Verification development for the url-shortener core
(short-code generation, hot cache, redirect resolution, URL registry).

Shallow embedding of:
  - src/server/utils/cache.js        (class UrlCache)
  - src/server/utils/shortCode.js    (generateShortCode / generateUniqueShortCode / isValidSlug)
  - src/server/utils/AppError.js     (AppError, errors factory)
  - src/server/models/Url.js         (url schema, findByShortCode, recordClick)
  - src/server/services/urlService.js (createUrl, getByShortCode, recordClick,
                                       updateUrl, deleteUrl)
  - src/server/services/cleanupService.js (getGuestUrlExpirationDate)
  - urlController redirectUrl        (redirect pipeline)

Conventions of the embedding:
  - Timestamps are `Nat` milliseconds (JS `Date.now()` / `Date` values).
  - JS truthiness of optional values (dates, ids) is absorbed into `Option`:
    a falsy JS value (`undefined`, `null`, empty string) is `none`,
    a truthy one is `some _`.
  - The JS `Map` is an insertion-ordered association list with unique keys;
    `Map.delete` removes the (single) binding of a key, modelled by removing
    the first occurrence.
  - `crypto.randomBytes` is an external entropy source, modelled as an injected
    function `Nat → Nat → List Nat` (call index → requested byte count → bytes).
  - The durable Mongo store is a list of records; `findOne` is the first match,
    `save` replaces the record with the same `_id`.
-/

deriving instance DecidableEq for Except

/-- src/server/utils/AppError.js: `class AppError` with `message`,
`statusCode` and `code`. -/
structure AppError where
  message : String
  statusCode : Nat
  code : String
deriving DecidableEq

/-- src/server/utils/AppError.js: `errors.badRequest`. -/
def errors.badRequest (m : String) : AppError := ⟨m, 400, "BAD_REQUEST"⟩

/-- src/server/utils/AppError.js: `errors.notFound`. -/
def errors.notFound (m : String) : AppError := ⟨m, 404, "NOT_FOUND"⟩

/-- src/server/utils/AppError.js: `errors.conflict`. -/
def errors.conflict (m : String) : AppError := ⟨m, 409, "CONFLICT"⟩

/-- src/server/models/Url.js: a click-history element
`{timestamp, ip, userAgent, referer}`. -/
structure Click where
  timestamp : Nat
  ip : String
  userAgent : String
  referer : String
deriving DecidableEq

/-- The click data passed to `recordClick` (`{ip, userAgent, referer}`). -/
structure ClickData where
  ip : String
  userAgent : String
  referer : String
deriving DecidableEq

/-- src/server/models/Url.js: the `urlSchema` document.  `createdAt` comes from
the schema's `timestamps: true` option; `id` models the Mongo `_id`. -/
structure UrlRecord where
  originalUrl : String
  shortCode : String
  customSlug : Option String
  userId : Option Nat
  guestId : Option String
  clicks : Nat
  clickHistory : List Click
  isActive : Bool
  expiresAt : Option Nat
  qrCode : Option String
  createdAt : Nat
  id : Nat
deriving DecidableEq

/-- The object cached by `getByShortCode` (urlService.js lines 95–99):
the literal `{originalUrl, shortCode, id}`.  The literal has no `expiresAt`
property, so reading `urlData.expiresAt` yields `undefined`; this is modelled
by an `expiresAt` field that the service always constructs as `none`. -/
structure UrlData where
  originalUrl : String
  shortCode : String
  id : Nat
  expiresAt : Option Nat
deriving DecidableEq

/-- src/server/utils/cache.js: a cache entry
`{data, expiresAt, hits, lastAccess}`. -/
structure CacheEntry where
  data : UrlData
  expiresAt : Nat
  hits : Nat
  lastAccess : Nat
deriving DecidableEq

/-- JS `Map.prototype.get`: the binding of a key (keys are unique, so the
first occurrence is the binding). -/
def mapGet (k : String) : List (String × CacheEntry) → Option CacheEntry
  | [] => none
  | (k', e) :: rest => if k' = k then some e else mapGet k rest

/-- JS `Map.prototype.set`: overwrite the binding in place if the key is
present (keeping its position in iteration order), otherwise append. -/
def mapSet (k : String) (e : CacheEntry) : List (String × CacheEntry) → List (String × CacheEntry)
  | [] => [(k, e)]
  | (k', e') :: rest => if k' = k then (k, e) :: rest else (k', e') :: mapSet k e rest

/-- JS `Map.prototype.delete`: remove the (unique) binding of a key, modelled
as removing the first occurrence. -/
def mapDelete (k : String) : List (String × CacheEntry) → List (String × CacheEntry)
  | [] => []
  | (k', e') :: rest => if k' = k then rest else (k', e') :: mapDelete k rest

/-- The keys of a JS `Map` are pairwise distinct. -/
def keysNodup (l : List (String × CacheEntry)) : Prop :=
  (l.map Prod.fst).Nodup

instance (l : List (String × CacheEntry)) : Decidable (keysNodup l) := by
  unfold keysNodup; infer_instance

/-- src/server/utils/cache.js: the `UrlCache` state (`cache`, `maxSize`,
`ttl`).  The background `cleanupInterval` timer is external scheduling and is
not part of the state. -/
structure UrlCache where
  cache : List (String × CacheEntry)
  maxSize : Nat
  ttl : Nat
deriving DecidableEq

/-- A freshly constructed cache (constructor of `UrlCache` with
`config.cache` values supplied). -/
def UrlCache.empty (maxSize ttl : Nat) : UrlCache := ⟨[], maxSize, ttl⟩

/-- cache.js lines 40–56, `UrlCache.get`: look the code up; an entry past its
own TTL deadline is deleted and reported absent; on a hit, bump `hits` and
`lastAccess` (in place, preserving map order) and return `entry.data`. -/
def UrlCache.get (c : UrlCache) (now : Nat) (shortCode : String) :
    Option UrlData × UrlCache :=
  match mapGet shortCode c.cache with
  | none => (none, c)
  | some entry =>
    if now > entry.expiresAt then
      (none, { c with cache := mapDelete shortCode c.cache })
    else
      let e' := { entry with hits := entry.hits + 1, lastAccess := now }
      (some entry.data, { c with cache := mapSet shortCode e' c.cache })

/-- cache.js lines 85–99, `UrlCache.evictLeastUsed`: linear scan for the entry
with the smallest `lastAccess` (strict `<`, so the earliest-seen wins ties),
then delete it.  The scan is over `(key, entry)` pairs; `findOldestGo` carries
the current best `(key, lastAccess)`. -/
def findOldestGo : (String × Nat) → List (String × CacheEntry) → (String × Nat)
  | best, [] => best
  | best, (k, e) :: rest =>
    if e.lastAccess < best.2 then findOldestGo (k, e.lastAccess) rest
    else findOldestGo best rest

/-- The key selected by the `evictLeastUsed` scan (`oldestKey`), `none` on an
empty map (in which case nothing is deleted). -/
def findOldest : List (String × CacheEntry) → Option String
  | [] => none
  | (k, e) :: rest => some (findOldestGo (k, e.lastAccess) rest).1

/-- cache.js `UrlCache.evictLeastUsed`. -/
def UrlCache.evictLeastUsed (c : UrlCache) : UrlCache :=
  match findOldest c.cache with
  | none => c
  | some k => { c with cache := mapDelete k c.cache }

/-- cache.js lines 61–73, `UrlCache.set`: evict when at capacity
(`size >= maxSize`), then bind the code to a fresh entry with
`expiresAt = now + ttl`, `hits = 1`, `lastAccess = now`. -/
def UrlCache.set (c : UrlCache) (now : Nat) (shortCode : String) (urlData : UrlData) :
    UrlCache :=
  let e : CacheEntry :=
    { data := urlData, expiresAt := now + c.ttl, hits := 1, lastAccess := now }
  if c.cache.length ≥ c.maxSize then
    { c.evictLeastUsed with cache := mapSet shortCode e c.evictLeastUsed.cache }
  else
    { c with cache := mapSet shortCode e c.cache }

/-- cache.js lines 78–80, `UrlCache.invalidate`: unconditional delete. -/
def UrlCache.invalidate (c : UrlCache) (shortCode : String) : UrlCache :=
  { c with cache := mapDelete shortCode c.cache }

/-- cache.js lines 104–112, `UrlCache.cleanup`: drop every entry past its TTL
deadline. -/
def UrlCache.cleanup (c : UrlCache) (now : Nat) : UrlCache :=
  { c with cache := c.cache.filter (fun p => !(now > p.2.expiresAt)) }

/-- src/server/config/index.js: `config.shortCode.length`. -/
def config.shortCodeLength : Nat := 6

/-- src/server/config/index.js: `config.shortCode.maxRetries`. -/
def config.maxRetries : Nat := 5

/-- src/server/config/index.js: `config.cache.maxSize`. -/
def config.cacheMaxSize : Nat := 1000

/-- src/server/config/index.js: `config.cache.ttl` (1 hour in ms). -/
def config.cacheTtl : Nat := 60 * 60 * 1000

/-- src/server/services/cleanupService.js: `GUEST_URL_EXPIRY_DAYS`. -/
def GUEST_URL_EXPIRY_DAYS : Nat := 7

/-- src/server/utils/shortCode.js line 9: the 62 character alphabet. -/
def ALPHABET : String :=
  "abcdefghijklmnopqrstuvwxyzABCDEFGHIJKLMNOPQRSTUVWXYZ0123456789"

/-- `ALPHABET[b % ALPHABET.length]` for one random byte.  The default `'a'` of
`getD` is never used since `b % 62 < 62`. -/
def alphabetChar (b : Nat) : Char :=
  ALPHABET.toList.getD (b % ALPHABET.length) 'a'

/-- shortCode.js lines 15–24, `generateShortCode`: map each of the supplied
random bytes through the alphabet and concatenate.  The byte list is the
result of the external `crypto.randomBytes(length)` call. -/
def generateShortCode (bytes : List Nat) : String :=
  bytes.foldl (fun code b => code.push (alphabetChar b)) ""

/-- The retry loop of `generateUniqueShortCode` (shortCode.js lines 34–46).
`rb i n` is the byte array produced by the `i`-th `crypto.randomBytes(n)`
call; `i` counts the calls made so far and `fuel` the retries left.  When the
retries are exhausted the fallback draws once at `codeLength + 2` and returns
without consulting `existsFn`. -/
def generateUniqueGo (rb : Nat → Nat → List Nat) (codeLength : Nat)
    (existsFn : String → Bool) : Nat → Nat → String
  | i, 0 => generateShortCode (rb i (codeLength + 2))
  | i, fuel + 1 =>
    let code := generateShortCode (rb i codeLength)
    if existsFn code then generateUniqueGo rb codeLength existsFn (i + 1) fuel
    else code

/-- shortCode.js lines 31–47, `generateUniqueShortCode`. -/
def generateUniqueShortCode (rb : Nat → Nat → List Nat)
    (codeLength maxRetries : Nat) (existsFn : String → Bool) : String :=
  generateUniqueGo rb codeLength existsFn 0 maxRetries

/-- shortCode.js lines 53–56, `isValidSlug`:
`/^[a-zA-Z0-9_-]+$/` and length between 3 and 50. -/
def isValidSlug (slug : String) : Bool :=
  slug.toList.all (fun ch => ch.isAlpha || ch.isDigit || ch = '_' || ch = '-')
    && slug.length ≥ 3 && slug.length ≤ 50

/-- cleanupService.js lines 423–427, `getGuestUrlExpirationDate`:
`setDate(getDate() + GUEST_URL_EXPIRY_DAYS)`, i.e. seven calendar days ahead,
modelled as 7 × 24h in milliseconds. -/
def getGuestUrlExpirationDate (now : Nat) : Nat :=
  now + GUEST_URL_EXPIRY_DAYS * 24 * 60 * 60 * 1000

/-- The durable store: the collection of `Url` documents. -/
abbrev Store := List UrlRecord

/-- Url.js lines 72–74, `Url.findByShortCode`:
`findOne({shortCode, isActive: true})`. -/
def Url.findByShortCode (st : Store) (shortCode : String) : Option UrlRecord :=
  List.find? (fun r => r.shortCode == shortCode && r.isActive) st

/-- `Url.findOne({shortCode})`. -/
def Url.findOneByCode (st : Store) (shortCode : String) : Option UrlRecord :=
  List.find? (fun r => r.shortCode == shortCode) st

/-- `Url.findOne({shortCode, userId})`: ownership is part of the query. -/
def Url.findOneByCodeAndUser (st : Store) (shortCode : String) (userId : Nat) :
    Option UrlRecord :=
  List.find? (fun r => r.shortCode == shortCode && r.userId == some userId) st

/-- `Url.exists({shortCode})`. -/
def Url.existsCode (st : Store) (shortCode : String) : Bool :=
  List.any st (fun r => r.shortCode == shortCode)

/-- Mongoose `document.save()` for an already-persisted document: replace the
record carrying the same `_id`. -/
def replaceById (st : Store) (id : Nat) (url : UrlRecord) : Store :=
  List.map (fun r => if r.id = id then url else r) st

/-- `Url.findOneAndDelete(query)`: remove the first record matching the
query. -/
def deleteFirst (p : UrlRecord → Bool) (st : Store) : Store :=
  List.eraseP p st

/-- Url.js lines 77–93, `urlSchema.methods.recordClick`: increment `clicks`;
if the history already holds ≥ 100 entries, `shift()` the oldest (the head);
then `push` the new entry with the current time. -/
def UrlRecord.recordClick (url : UrlRecord) (now : Nat) (cd : ClickData) : UrlRecord :=
  let history :=
    if url.clickHistory.length ≥ 100 then url.clickHistory.tail
    else url.clickHistory
  { url with
    clicks := url.clicks + 1,
    clickHistory :=
      history ++ [{ timestamp := now, ip := cd.ip,
                    userAgent := cd.userAgent, referer := cd.referer }] }

/-- urlService.js lines 111–116, `UrlService.recordClick`: look the code up
with a plain `findOne({shortCode})`; if absent do nothing, otherwise apply the
model's `recordClick` and save.  The function cannot raise a domain error. -/
def UrlService.recordClick (st : Store) (shortCode : String) (now : Nat)
    (cd : ClickData) : Store :=
  match Url.findOneByCode st shortCode with
  | none => st
  | some url => replaceById st url.id (url.recordClick now cd)

/-- `url.expiresAt && url.expiresAt < new Date()` (urlService.js line 91):
a set expiry strictly in the past. -/
def recordExpired (expiresAt : Option Nat) (now : Nat) : Bool :=
  match expiresAt with
  | some e => decide (e < now)
  | none => false

/-- urlService.js lines 78–106, `UrlService.getByShortCode`: cache first; on a
miss fetch via `findByShortCode` (active records only), reject an absent
record with `errors.notFound("URL not found")` and an expired one with
`errors.notFound("URL has expired")`, otherwise cache and return the
projection `{originalUrl, shortCode, id}` (which carries no `expiresAt`). -/
def UrlService.getByShortCode (now : Nat) (st : Store) (c : UrlCache)
    (shortCode : String) : Except AppError UrlData × UrlCache :=
  match UrlCache.get c now shortCode with
  | (some urlData, c1) => (.ok urlData, c1)
  | (none, c1) =>
    match Url.findByShortCode st shortCode with
    | none => (.error (errors.notFound "URL not found"), c1)
    | some url =>
      if recordExpired url.expiresAt now then
        (.error (errors.notFound "URL has expired"), c1)
      else
        let urlData : UrlData :=
          { originalUrl := url.originalUrl, shortCode := url.shortCode,
            id := url.id, expiresAt := none }
        (.ok urlData, UrlCache.set c1 now shortCode urlData)

/-- urlController.js `redirectUrl` (src/unnamed/part_012 lines 50–76): resolve
through `getByShortCode`; then re-check `url.expiresAt && new Date() >
url.expiresAt` on the returned object.  That object is the cached projection,
whose `expiresAt` is always `none`, so the branch is unreachable — reaching it
would in fact crash, since `AppError.gone` is not defined in AppError.js; it
is modelled here as a 410 error.  On success respond with a 301 redirect to
`url.originalUrl` (the click recording is fire-and-forget and does not affect
the response). -/
def redirectUrl (now : Nat) (st : Store) (c : UrlCache) (shortCode : String) :
    Except AppError String × UrlCache :=
  match UrlService.getByShortCode now st c shortCode with
  | (.error e, c1) => (.error e, c1)
  | (.ok url, c1) =>
    match url.expiresAt with
    | some e =>
      if now > e then
        (.error { message := "This short URL has expired",
                  statusCode := 410, code := "GONE" }, c1)
      else (.ok url.originalUrl, c1)
    | none => (.ok url.originalUrl, c1)

/-- The arguments of `UrlService.createUrl` (urlService.js line 23).
`expiresAt` is `none` for a falsy caller input. -/
structure CreateParams where
  originalUrl : String
  customSlug : Option String
  userId : Option Nat
  guestId : Option String
  expiresAt : Option Nat
deriving DecidableEq

/-- The short-code assignment step of `createUrl` (urlService.js lines
31–49): a given custom slug is validated and checked for conflicts; otherwise
a code is drawn by `generateUniqueShortCode` against the store-existence
predicate `Url.exists({shortCode})`. -/
def assignCode (rb : Nat → Nat → List Nat) (st : Store) :
    Option String → Except AppError String
  | some slug =>
    if !isValidSlug slug then
      .error (errors.badRequest
        "Invalid slug format. Use 3-50 alphanumeric characters, hyphens, or underscores")
    else if (Url.findOneByCode st slug).isSome then
      .error (errors.conflict "This custom slug is already taken")
    else .ok slug
  | none =>
    .ok (generateUniqueShortCode rb config.shortCodeLength config.maxRetries
          (fun code => Url.existsCode st code))

/-- urlService.js lines 23–73, `UrlService.createUrl`.  `validUrl` stands for
the platform's `new URL(...)` parse plus the http/https protocol check
(urlService.js lines 274–281); `freshId` is the `_id` Mongo assigns.  The
expiration policy (lines 51–59): a guest-owned URL (`guestId && !userId`)
always gets `now + 7 days`; an authenticated owner gets the provided
`expiresAt` (`userId && expiresAt`) or none. -/
def UrlService.createUrl (validUrl : String → Bool) (rb : Nat → Nat → List Nat)
    (now : Nat) (st : Store) (freshId : Nat) (p : CreateParams) :
    Except AppError (UrlRecord × Store) :=
  if !validUrl p.originalUrl then
    .error (errors.badRequest "Invalid URL format")
  else
    match assignCode rb st p.customSlug with
    | .error e => .error e
    | .ok shortCode =>
      let urlExpiration : Option Nat :=
        if p.guestId.isSome && p.userId.isNone then
          some (getGuestUrlExpirationDate now)
        else if p.userId.isSome && p.expiresAt.isSome then
          p.expiresAt
        else none
      let url : UrlRecord :=
        { originalUrl := p.originalUrl, shortCode := shortCode,
          customSlug := p.customSlug, userId := p.userId,
          guestId := p.guestId, clicks := 0, clickHistory := [],
          isActive := true, expiresAt := urlExpiration, qrCode := none,
          createdAt := now, id := freshId }
      .ok (url, st ++ [url])

/-- The update payload of `UrlService.updateUrl`.  The JS loop walks
`Object.keys(updates)` and assigns only the keys in
`['originalUrl', 'isActive', 'expiresAt']`; any other key in the payload is
ignored, so only the three allowed fields are represented (`none` = key
absent).  For `expiresAt` the code maps a falsy value to `null`, which under
the Option representation coincides with assigning the value itself. -/
structure UrlUpdates where
  originalUrl : Option String
  isActive : Option Bool
  expiresAt : Option (Option Nat)
deriving DecidableEq

/-- The field assignments of the `updateUrl` loop (urlService.js lines
177–188). -/
def applyUpdates (url : UrlRecord) (u : UrlUpdates) : UrlRecord :=
  let url1 := match u.originalUrl with
    | some v => { url with originalUrl := v }
    | none => url
  let url2 := match u.isActive with
    | some v => { url1 with isActive := v }
    | none => url1
  match u.expiresAt with
  | some v => { url2 with expiresAt := v }
  | none => url2

/-- urlService.js lines 170–196, `UrlService.updateUrl`: look up by
`(shortCode, userId)` — a record owned by someone else is simply not found;
apply the allowed updates, save, and invalidate the cache entry for the
(unchanged) short code before returning. -/
def UrlService.updateUrl (st : Store) (c : UrlCache) (shortCode : String)
    (userId : Nat) (u : UrlUpdates) :
    Except AppError UrlRecord × Store × UrlCache :=
  match Url.findOneByCodeAndUser st shortCode userId with
  | none => (.error (errors.notFound "URL not found or access denied"), st, c)
  | some url =>
    let url' := applyUpdates url u
    (.ok url', replaceById st url.id url', UrlCache.invalidate c url'.shortCode)

/-- urlService.js lines 201–212, `UrlService.deleteUrl`:
`findOneAndDelete({shortCode, userId})`, then invalidate the cache entry. -/
def UrlService.deleteUrl (st : Store) (c : UrlCache) (shortCode : String)
    (userId : Nat) : Except AppError Unit × Store × UrlCache :=
  match Url.findOneByCodeAndUser st shortCode userId with
  | none => (.error (errors.notFound "URL not found or access denied"), st, c)
  | some url =>
    (.ok (),
     deleteFirst (fun r => r.shortCode == shortCode && r.userId == some userId) st,
     UrlCache.invalidate c url.shortCode)

/-- Insert a sequence of codes into the cache via `UrlCache.set`, all at the
same instant (the eviction scenario of the spec's testable property). -/
def insertAll (c : UrlCache) (now : Nat) (df : String → UrlData) :
    List String → UrlCache
  | [] => c
  | code :: rest => insertAll (UrlCache.set c now code (df code)) now df rest

lemma mapGet_mapSet_self (k : String) (e : CacheEntry)
    (l : List (String × CacheEntry)) : mapGet k (mapSet k e l) = some e := by
  induction l with
  | nil => simp [mapGet, mapSet]
  | cons hd rest ih =>
    obtain ⟨k', e'⟩ := hd
    by_cases h : k' = k
    · simp [mapSet, mapGet, h]
    · simp [mapSet, mapGet, h, ih]

lemma mapGet_mapSet_ne {x k : String} (e : CacheEntry)
    (l : List (String × CacheEntry)) (h : x ≠ k) :
    mapGet x (mapSet k e l) = mapGet x l := by
  have hk : ¬(k = x) := fun hc => h hc.symm
  induction l with
  | nil => simp [mapGet, mapSet, hk]
  | cons hd rest ih =>
    obtain ⟨k', e'⟩ := hd
    by_cases hkk : k' = k
    · simp [mapSet, mapGet, hkk, hk]
    · simp only [mapSet, if_neg hkk, mapGet]
      by_cases hx : k' = x <;> simp [hx, ih]

lemma mapGet_eq_none_iff (k : String) (l : List (String × CacheEntry)) :
    mapGet k l = none ↔ k ∉ l.map Prod.fst := by
  induction l with
  | nil => simp [mapGet]
  | cons hd rest ih =>
    obtain ⟨k', e'⟩ := hd
    by_cases hk : k' = k
    · simp [mapGet, hk]
    · have hk' : ¬(k = k') := fun hc => hk hc.symm
      simp only [mapGet, if_neg hk, List.map_cons, List.mem_cons]
      rw [ih]
      simp [hk']

lemma mapGet_mapDelete_of_none {x : String} (k : String)
    (l : List (String × CacheEntry)) (h : mapGet x l = none) :
    mapGet x (mapDelete k l) = none := by
  induction l with
  | nil => simp [mapDelete, mapGet]
  | cons hd rest ih =>
    obtain ⟨k', e'⟩ := hd
    simp only [mapGet] at h
    by_cases hx : k' = x
    · simp [hx] at h
    · simp only [if_neg hx] at h
      by_cases hk : k' = k
      · simpa [mapDelete, hk] using h
      · simp [mapDelete, hk, mapGet, hx, ih h]

lemma keys_mapDelete_sublist (k : String) (l : List (String × CacheEntry)) :
    ((mapDelete k l).map Prod.fst).Sublist (l.map Prod.fst) := by
  induction l with
  | nil => simp [mapDelete]
  | cons hd rest ih =>
    obtain ⟨k', e'⟩ := hd
    by_cases hk : k' = k
    · simp only [mapDelete, if_pos hk, List.map_cons]
      exact List.sublist_cons_self _ _
    · simp only [mapDelete, if_neg hk, List.map_cons]
      exact ih.cons₂ k'

lemma keysNodup_mapDelete (k : String) (l : List (String × CacheEntry))
    (h : keysNodup l) : keysNodup (mapDelete k l) :=
  (keys_mapDelete_sublist k l).nodup h

lemma keys_mapSet (k : String) (e : CacheEntry)
    (l : List (String × CacheEntry)) :
    (mapSet k e l).map Prod.fst =
      if k ∈ l.map Prod.fst then l.map Prod.fst else l.map Prod.fst ++ [k] := by
  induction l with
  | nil => simp [mapSet]
  | cons hd rest ih =>
    obtain ⟨k', e'⟩ := hd
    by_cases hk : k' = k
    · simp [mapSet, hk]
    · have hk' : ¬(k = k') := fun hc => hk hc.symm
      by_cases hmem : k ∈ rest.map Prod.fst <;>
        simp [mapSet, hk, ih, hmem, hk']

lemma keysNodup_mapSet (k : String) (e : CacheEntry)
    (l : List (String × CacheEntry)) (h : keysNodup l) :
    keysNodup (mapSet k e l) := by
  unfold keysNodup at h ⊢
  rw [keys_mapSet]
  by_cases hmem : k ∈ l.map Prod.fst
  · simpa [hmem] using h
  · simp only [if_neg hmem]
    rw [List.nodup_append]
    refine ⟨h, List.nodup_singleton k, ?_⟩
    intro a ha hb
    rw [List.mem_singleton] at hb
    exact hmem (hb ▸ ha)

lemma mapGet_mapDelete_self (k : String) (l : List (String × CacheEntry))
    (h : keysNodup l) : mapGet k (mapDelete k l) = none := by
  induction l with
  | nil => simp [mapDelete, mapGet]
  | cons hd rest ih =>
    obtain ⟨k', e'⟩ := hd
    have hpair := List.nodup_cons.mp h
    by_cases hk : k' = k
    · subst hk
      simp only [mapDelete, if_pos rfl]
      exact (mapGet_eq_none_iff _ _).mpr hpair.1
    · simp [mapDelete, hk, mapGet, ih hpair.2]

lemma length_mapSet_of_none (k : String) (e : CacheEntry)
    (l : List (String × CacheEntry)) (h : mapGet k l = none) :
    (mapSet k e l).length = l.length + 1 := by
  induction l with
  | nil => simp [mapSet]
  | cons hd rest ih =>
    obtain ⟨k', e'⟩ := hd
    simp only [mapGet] at h
    by_cases hk : k' = k
    · simp [hk] at h
    · simp only [if_neg hk] at h
      simp [mapSet, hk, ih h]

lemma length_mapDelete_of_some (k : String) {e : CacheEntry}
    (l : List (String × CacheEntry)) (h : mapGet k l = some e) :
    (mapDelete k l).length + 1 = l.length := by
  induction l with
  | nil => simp [mapGet] at h
  | cons hd rest ih =>
    obtain ⟨k', e'⟩ := hd
    simp only [mapGet] at h
    by_cases hk : k' = k
    · simp [mapDelete, hk]
    · simp only [if_neg hk] at h
      simp [mapDelete, hk, ih h]

lemma mapGet_isSome_of_mem {k : String} {e : CacheEntry}
    {l : List (String × CacheEntry)} (h : (k, e) ∈ l) :
    ∃ e', mapGet k l = some e' := by
  induction l with
  | nil => simp at h
  | cons hd rest ih =>
    obtain ⟨k', e'⟩ := hd
    by_cases hk : k' = k
    · exact ⟨e', by simp [mapGet, hk]⟩
    · rcases List.mem_cons.mp h with h1 | h1
      · exact absurd (congrArg Prod.fst h1).symm hk
      · simpa [mapGet, hk] using ih h1

lemma findOldestGo_spec (l : List (String × CacheEntry)) :
    ∀ best : String × Nat,
      (findOldestGo best l = best ∨
        ∃ e, ((findOldestGo best l).1, e) ∈ l ∧
          e.lastAccess = (findOldestGo best l).2) ∧
      (findOldestGo best l).2 ≤ best.2 ∧
      ∀ p ∈ l, (findOldestGo best l).2 ≤ p.2.lastAccess := by
  induction l with
  | nil => intro best; simp [findOldestGo]
  | cons hd rest ih =>
    intro best
    obtain ⟨k, e⟩ := hd
    by_cases hlt : e.lastAccess < best.2
    · simp only [findOldestGo, if_pos hlt]
      have h := ih (k, e.lastAccess)
      refine ⟨?_, ?_, ?_⟩
      · rcases h.1 with heq | ⟨e', hmem, hacc⟩
        · right
          exact ⟨e, by simp [heq], by simp [heq]⟩
        · right
          exact ⟨e', List.mem_cons_of_mem _ hmem, hacc⟩
      · exact le_of_lt (lt_of_le_of_lt h.2.1 hlt)
      · intro p hp
        rcases List.mem_cons.mp hp with hp | hp
        · rw [hp]
          exact h.2.1
        · exact h.2.2 p hp
    · simp only [findOldestGo, if_neg hlt]
      have h := ih best
      refine ⟨?_, h.2.1, ?_⟩
      · rcases h.1 with heq | ⟨e', hmem, hacc⟩
        · left; exact heq
        · right; exact ⟨e', List.mem_cons_of_mem _ hmem, hacc⟩
      · intro p hp
        rcases List.mem_cons.mp hp with hp | hp
        · rw [hp]
          exact le_trans h.2.1 (le_of_not_lt hlt)
        · exact h.2.2 p hp

lemma findOldest_spec {l : List (String × CacheEntry)} {k : String}
    (h : findOldest l = some k) :
    ∃ e, (k, e) ∈ l ∧ ∀ p ∈ l, e.lastAccess ≤ p.2.lastAccess := by
  cases l with
  | nil => simp [findOldest] at h
  | cons hd rest =>
    obtain ⟨k0, e0⟩ := hd
    simp only [findOldest, Option.some.injEq] at h
    have hs := findOldestGo_spec rest (k0, e0.lastAccess)
    rcases hs.1 with heq | ⟨e', hmem, hacc⟩
    · refine ⟨e0, ?_, ?_⟩
      · rw [← h, heq]
        exact List.mem_cons_self _ _
      · intro p hp
        rcases List.mem_cons.mp hp with hp | hp
        · rw [hp]
        · have := hs.2.2 p hp
          rwa [heq] at this
    · refine ⟨e', ?_, ?_⟩
      · rw [← h]
        exact List.mem_cons_of_mem _ hmem
      · intro p hp
        rcases List.mem_cons.mp hp with hp | hp
        · rw [hp, hacc]
          exact hs.2.1
        · rw [hacc]
          exact hs.2.2 p hp

lemma findOldest_isSome {l : List (String × CacheEntry)} (h : l ≠ []) :
    ∃ k, findOldest l = some k := by
  cases l with
  | nil => exact absurd rfl h
  | cons hd rest =>
    obtain ⟨k0, e0⟩ := hd
    exact ⟨_, rfl⟩

lemma evict_maxSize (c : UrlCache) : c.evictLeastUsed.maxSize = c.maxSize := by
  unfold UrlCache.evictLeastUsed
  cases findOldest c.cache <;> rfl

lemma evict_ttl (c : UrlCache) : c.evictLeastUsed.ttl = c.ttl := by
  unfold UrlCache.evictLeastUsed
  cases findOldest c.cache <;> rfl

lemma set_maxSize (c : UrlCache) (now : Nat) (code : String) (d : UrlData) :
    (UrlCache.set c now code d).maxSize = c.maxSize := by
  unfold UrlCache.set
  by_cases h : c.cache.length ≥ c.maxSize <;> simp [h, evict_maxSize]

lemma set_fresh_step (c : UrlCache) (now : Nat) (code : String) (d : UrlData)
    (hpos : 0 < c.maxSize) (hle : c.cache.length ≤ c.maxSize)
    (hfresh : mapGet code c.cache = none) :
    (UrlCache.set c now code d).cache.length = min (c.cache.length + 1) c.maxSize ∧
    (∀ x, mapGet x c.cache = none → x ≠ code →
      mapGet x (UrlCache.set c now code d).cache = none) := by
  unfold UrlCache.set
  by_cases hcap : c.cache.length ≥ c.maxSize
  · have hlen : c.cache.length = c.maxSize := le_antisymm hle hcap
    have hne : c.cache ≠ [] := by
      intro hnil
      rw [hnil] at hlen
      simp at hlen
      omega
    obtain ⟨k, hk⟩ := findOldest_isSome hne
    obtain ⟨e, hmem, _⟩ := findOldest_spec hk
    obtain ⟨e', hget⟩ := mapGet_isSome_of_mem hmem
    have hdc : c.evictLeastUsed.cache = mapDelete k c.cache := by
      unfold UrlCache.evictLeastUsed
      rw [hk]
    simp only [if_pos hcap, hdc]
    have hdel : (mapDelete k c.cache).length + 1 = c.cache.length :=
      length_mapDelete_of_some k c.cache hget
    have hfresh2 : mapGet code (mapDelete k c.cache) = none :=
      mapGet_mapDelete_of_none k c.cache hfresh
    constructor
    · have hset := length_mapSet_of_none code
        ⟨d, now + c.ttl, 1, now⟩ (mapDelete k c.cache) hfresh2
      rw [hset]
      omega
    · intro x hx hxc
      rw [mapGet_mapSet_ne _ _ hxc]
      exact mapGet_mapDelete_of_none k c.cache hx
  · have hlt : c.cache.length < c.maxSize := lt_of_not_ge hcap
    simp only [if_neg hcap]
    constructor
    · rw [length_mapSet_of_none code _ c.cache hfresh]
      omega
    · intro x hx hxc
      rw [mapGet_mapSet_ne _ _ hxc]
      exact hx

lemma insertAll_length (now : Nat) (df : String → UrlData) :
    ∀ (codes : List String) (c : UrlCache), 0 < c.maxSize →
      c.cache.length ≤ c.maxSize → codes.Nodup →
      (∀ x ∈ codes, mapGet x c.cache = none) →
      (insertAll c now df codes).cache.length =
        min (c.cache.length + codes.length) c.maxSize := by
  intro codes
  induction codes with
  | nil =>
    intro c hpos hle _ _
    simp only [insertAll, List.length_nil]
    omega
  | cons code rest ih =>
    intro c hpos hle hnodup hfresh
    have hstep := set_fresh_step c now code (df code) hpos hle (hfresh code (by simp))
    have hmax := set_maxSize c now code (df code)
    have hpos' : 0 < (UrlCache.set c now code (df code)).maxSize := by rwa [hmax]
    have hle' : (UrlCache.set c now code (df code)).cache.length ≤
        (UrlCache.set c now code (df code)).maxSize := by
      rw [hmax, hstep.1]
      omega
    have hfresh2 : ∀ x ∈ rest, mapGet x (UrlCache.set c now code (df code)).cache = none := by
      intro x hx
      have hxne : x ≠ code := by
        intro hc
        subst hc
        exact (List.nodup_cons.mp hnodup).1 hx
      exact hstep.2 x (hfresh x (List.mem_cons_of_mem _ hx)) hxne
    have hrec := ih (UrlCache.set c now code (df code)) hpos' hle'
      (List.nodup_cons.mp hnodup).2 hfresh2
    rw [insertAll, hrec, hmax, hstep.1]
    simp only [List.length_cons]
    omega

lemma get_none_of_absent (c : UrlCache) (now : Nat) (code : String)
    (h : mapGet code c.cache = none) :
    UrlCache.get c now code = (none, c) := by
  unfold UrlCache.get
  rw [h]

lemma applyUpdates_frame (url : UrlRecord) (u : UrlUpdates) :
    (applyUpdates url u).shortCode = url.shortCode ∧
    (applyUpdates url u).userId = url.userId ∧
    (applyUpdates url u).guestId = url.guestId ∧
    (applyUpdates url u).clicks = url.clicks ∧
    (applyUpdates url u).clickHistory = url.clickHistory ∧
    (applyUpdates url u).createdAt = url.createdAt ∧
    (applyUpdates url u).customSlug = url.customSlug ∧
    (applyUpdates url u).qrCode = url.qrCode ∧
    (applyUpdates url u).id = url.id := by
  unfold applyUpdates
  rcases u with ⟨uo, ua, ue⟩
  cases uo <;> cases ua <;> cases ue <;> simp

lemma findOneByCodeAndUser_shortCode {st : Store} {shortCode : String}
    {userId : Nat} {url : UrlRecord}
    (h : Url.findOneByCodeAndUser st shortCode userId = some url) :
    url.shortCode = shortCode ∧ url.userId = some userId := by
  have hp := List.find?_some h
  simp only [Bool.and_eq_true, beq_iff_eq] at hp
  exact hp

/-- Concrete record fixture: an active URL owned by user 7 that expired at
time 100. -/
def rec1 : UrlRecord :=
  { originalUrl := "https://example.com", shortCode := "abc", customSlug := none,
    userId := some 7, guestId := none, clicks := 0, clickHistory := [],
    isActive := true, expiresAt := some 100, qrCode := none, createdAt := 0,
    id := 1 }

/-- The singleton cache instance as constructed at module load
(`new UrlCache()` with `config.cache`). -/
def cache0 : UrlCache := UrlCache.empty config.cacheMaxSize config.cacheTtl

/-- Concrete click-data fixture. -/
def cd0 : ClickData := { ip := "1.2.3.4", userAgent := "ua", referer := "ref" }

/-- Concrete update payload fixture. -/
def u0 : UrlUpdates :=
  { originalUrl := some "https://new.example.com", isActive := none,
    expiresAt := none }

/-- C8: for a record whose click history holds at most 100 entries,
`recordClick` increments the click count by exactly one and appends exactly
one new history entry; when the history already holds 100 entries the oldest
(head) entry is removed before appending, so the history never exceeds 100
entries. -/
theorem recordClick_bounded_history (url : UrlRecord) (now : Nat) (cd : ClickData)
    (h : url.clickHistory.length ≤ 100) :
    (url.recordClick now cd).clicks = url.clicks + 1 ∧
    (url.clickHistory.length < 100 →
      (url.recordClick now cd).clickHistory =
        url.clickHistory ++ [⟨now, cd.ip, cd.userAgent, cd.referer⟩]) ∧
    (url.clickHistory.length = 100 →
      (url.recordClick now cd).clickHistory =
        url.clickHistory.tail ++ [⟨now, cd.ip, cd.userAgent, cd.referer⟩]) ∧
    (url.recordClick now cd).clickHistory.length ≤ 100 := by
  unfold UrlRecord.recordClick
  by_cases hc : url.clickHistory.length ≥ 100
  · have h100 : url.clickHistory.length = 100 := le_antisymm h hc
    simp only [if_pos hc, List.length_append, List.length_tail,
      List.length_cons, List.length_nil]
    exact ⟨trivial, fun hlt => absurd h100 (by omega), fun _ => trivial,
      by omega⟩
  · have hlt : url.clickHistory.length < 100 := lt_of_not_ge hc
    simp only [if_neg hc, List.length_append, List.length_cons, List.length_nil]
    exact ⟨trivial, fun _ => trivial, fun he => absurd he (by omega), by omega⟩

theorem recordClick_bounded_history_witness :
    (rec1.recordClick 5 cd0).clicks = rec1.clicks + 1 ∧
    (rec1.recordClick 5 cd0).clickHistory =
      rec1.clickHistory ++ [⟨5, cd0.ip, cd0.userAgent, cd0.referer⟩] :=
  ⟨(recordClick_bounded_history rec1 5 cd0 (by decide)).1,
   (recordClick_bounded_history rec1 5 cd0 (by decide)).2.1 (by decide)⟩

/-- C10: `UrlService.recordClick` on a short code with no stored record is a
no-op — the store is returned unchanged, and the function (whose return type
is a plain `Store`) cannot raise a domain error. -/
theorem recordClick_missing_noop (st : Store) (shortCode : String) (now : Nat)
    (cd : ClickData) (h : Url.findOneByCode st shortCode = none) :
    UrlService.recordClick st shortCode now cd = st := by
  unfold UrlService.recordClick
  rw [h]

theorem recordClick_missing_noop_witness :
    UrlService.recordClick [rec1] "zzz" 3 cd0 = [rec1] :=
  recordClick_missing_noop [rec1] "zzz" 3 cd0 (by decide)

/-- C4: after a successful `UrlService.updateUrl` or `UrlService.deleteUrl`
for `(shortCode, userId)`, the cache holds no entry for that short code (both
operations call `UrlCache.invalidate` before returning), so a subsequent
`UrlCache.get` reports a miss — in particular it cannot return the
pre-mutation target. -/
theorem mutation_invalidates_cache (now : Nat) (st : Store) (c : UrlCache)
    (shortCode : String) (userId : Nat) (u : UrlUpdates)
    (hnodup : keysNodup c.cache) :
    (∀ url', (UrlService.updateUrl st c shortCode userId u).1 = .ok url' →
      mapGet shortCode (UrlService.updateUrl st c shortCode userId u).2.2.cache = none ∧
      (UrlCache.get (UrlService.updateUrl st c shortCode userId u).2.2 now shortCode).1 = none) ∧
    ((UrlService.deleteUrl st c shortCode userId).1 = .ok () →
      mapGet shortCode (UrlService.deleteUrl st c shortCode userId).2.2.cache = none ∧
      (UrlCache.get (UrlService.deleteUrl st c shortCode userId).2.2 now shortCode).1 = none) := by
  constructor
  · intro url' hok
    unfold UrlService.updateUrl at hok ⊢
    cases hfind : Url.findOneByCodeAndUser st shortCode userId with
    | none =>
      rw [hfind] at hok
      cases hok
    | some url =>
      dsimp only
      have hsc : (applyUpdates url u).shortCode = shortCode := by
        rw [(applyUpdates_frame url u).1]
        exact (findOneByCodeAndUser_shortCode hfind).1
      simp only [UrlCache.invalidate, hsc]
      have habsent : mapGet shortCode (mapDelete shortCode c.cache) = none :=
        mapGet_mapDelete_self shortCode c.cache hnodup
      refine ⟨habsent, ?_⟩
      have := get_none_of_absent ⟨mapDelete shortCode c.cache, c.maxSize, c.ttl⟩
        now shortCode habsent
      simpa using congrArg Prod.fst this
  · intro hok
    unfold UrlService.deleteUrl at hok ⊢
    cases hfind : Url.findOneByCodeAndUser st shortCode userId with
    | none =>
      rw [hfind] at hok
      cases hok
    | some url =>
      dsimp only
      have hsc : url.shortCode = shortCode :=
        (findOneByCodeAndUser_shortCode hfind).1
      simp only [UrlCache.invalidate, hsc]
      have habsent : mapGet shortCode (mapDelete shortCode c.cache) = none :=
        mapGet_mapDelete_self shortCode c.cache hnodup
      refine ⟨habsent, ?_⟩
      have := get_none_of_absent ⟨mapDelete shortCode c.cache, c.maxSize, c.ttl⟩
        now shortCode habsent
      simpa using congrArg Prod.fst this

theorem mutation_invalidates_cache_witness :
    mapGet "abc" (UrlService.updateUrl [rec1] (UrlCache.set cache0 10 "abc"
      ⟨"https://example.com", "abc", 1, none⟩) "abc" 7 u0).2.2.cache = none ∧
    mapGet "abc" (UrlService.deleteUrl [rec1] (UrlCache.set cache0 10 "abc"
      ⟨"https://example.com", "abc", 1, none⟩) "abc" 7).2.2.cache = none :=
  ⟨((mutation_invalidates_cache 20 [rec1] (UrlCache.set cache0 10 "abc"
      ⟨"https://example.com", "abc", 1, none⟩) "abc" 7 u0 (by decide)).1
      (applyUpdates rec1 u0) (by decide)).1,
   ((mutation_invalidates_cache 20 [rec1] (UrlCache.set cache0 10 "abc"
      ⟨"https://example.com", "abc", 1, none⟩) "abc" 7 u0 (by decide)).2
      (by decide)).1⟩

lemma keysNodup_evict (c : UrlCache) (h : keysNodup c.cache) :
    keysNodup c.evictLeastUsed.cache := by
  unfold UrlCache.evictLeastUsed
  cases findOldest c.cache with
  | none => exact h
  | some k => exact keysNodup_mapDelete k c.cache h

lemma keysNodup_set (c : UrlCache) (now : Nat) (code : String) (d : UrlData)
    (h : keysNodup c.cache) : keysNodup (UrlCache.set c now code d).cache := by
  unfold UrlCache.set
  by_cases hcap : c.cache.length ≥ c.maxSize
  · simp only [if_pos hcap]
    exact keysNodup_mapSet _ _ _ (keysNodup_evict c h)
  · simp only [if_neg hcap]
    exact keysNodup_mapSet _ _ _ h

lemma mapGet_set_self (c : UrlCache) (now : Nat) (code : String) (d : UrlData) :
    mapGet code (UrlCache.set c now code d).cache =
      some ⟨d, now + c.ttl, 1, now⟩ := by
  unfold UrlCache.set
  by_cases hcap : c.cache.length ≥ c.maxSize <;>
    simp [hcap, mapGet_mapSet_self]

/-- Concrete cached projection fixture for the `rec1` record. -/
def d0ex : UrlData := ⟨"https://example.com", "abc", 1, none⟩

/-- C6: an entry freshly inserted by `UrlCache.set` at `now0` is served by
`get` at every instant `now ≤ now0 + ttl` — returning the cached target with
`hits` incremented (1 → 2) and `lastAccess` set to the access time — and at
every instant strictly later than `now0 + ttl` the entry is reported absent
and deleted from the map, with no `cleanup` call involved. -/
theorem cache_ttl_expiry (c : UrlCache) (now0 now : Nat) (code : String)
    (d : UrlData) (hnodup : keysNodup c.cache) :
    (now > now0 + c.ttl →
      (UrlCache.get (UrlCache.set c now0 code d) now code).1 = none ∧
      mapGet code (UrlCache.get (UrlCache.set c now0 code d) now code).2.cache = none) ∧
    (now ≤ now0 + c.ttl →
      (UrlCache.get (UrlCache.set c now0 code d) now code).1 = some d ∧
      mapGet code (UrlCache.get (UrlCache.set c now0 code d) now code).2.cache =
        some ⟨d, now0 + c.ttl, 2, now⟩) := by
  have hget := mapGet_set_self c now0 code d
  have hnd : keysNodup (UrlCache.set c now0 code d).cache :=
    keysNodup_set c now0 code d hnodup
  constructor
  · intro hgt
    unfold UrlCache.get
    rw [hget]
    simp only [if_pos hgt]
    exact ⟨trivial, mapGet_mapDelete_self code _ hnd⟩
  · intro hle
    unfold UrlCache.get
    rw [hget]
    have hngt : ¬(now > now0 + c.ttl) := not_lt_of_ge hle
    simp only [if_neg hngt]
    exact ⟨trivial, mapGet_mapSet_self code _ _⟩

theorem cache_ttl_expiry_witness :
    (UrlCache.get (UrlCache.set cache0 10 "abc" d0ex) 20 "abc").1 = some d0ex ∧
    (UrlCache.get (UrlCache.set cache0 10 "abc" d0ex) 3600011 "abc").1 = none :=
  ⟨((cache_ttl_expiry cache0 10 20 "abc" d0ex (by decide)).2 (by decide)).1,
   ((cache_ttl_expiry cache0 10 3600011 "abc" d0ex (by decide)).1 (by decide)).1⟩

/-- C5: from an empty cache of capacity `maxSize > 0`, inserting `maxSize + 1`
distinct codes leaves exactly `maxSize` entries; and whenever `set` runs at
capacity it removes, before inserting, exactly one entry — one whose
`lastAccess` is minimal over the whole map (least-recently-used; `hits` plays
no role in the choice). -/
theorem cache_eviction_lru (maxSize ttl now : Nat) (codes : List String)
    (df : String → UrlData) (hpos : 0 < maxSize) (hnodup : codes.Nodup)
    (hlen : codes.length = maxSize + 1) :
    (insertAll (UrlCache.empty maxSize ttl) now df codes).cache.length = maxSize ∧
    (∀ (c : UrlCache) (code : String) (d : UrlData) (t : Nat),
      c.cache.length ≥ c.maxSize → 0 < c.maxSize →
      ∃ k e, (k, e) ∈ c.cache ∧
        (∀ p ∈ c.cache, e.lastAccess ≤ p.2.lastAccess) ∧
        (UrlCache.set c t code d).cache =
          mapSet code ⟨d, t + c.ttl, 1, t⟩ (mapDelete k c.cache) ∧
        (mapDelete k c.cache).length + 1 = c.cache.length) := by
  constructor
  · have hins := insertAll_length now df codes (UrlCache.empty maxSize ttl)
      hpos (by exact Nat.zero_le _) hnodup (fun x _ => rfl)
    rw [hins]
    show min (0 + codes.length) maxSize = maxSize
    rw [hlen]
    omega
  · intro c code d t hcap hp
    have hne : c.cache ≠ [] := by
      intro hnil
      rw [hnil] at hcap
      simp only [List.length_nil] at hcap
      omega
    obtain ⟨k, hk⟩ := findOldest_isSome hne
    obtain ⟨e, hmem, hmin⟩ := findOldest_spec hk
    obtain ⟨e2, hget⟩ := mapGet_isSome_of_mem hmem
    refine ⟨k, e, hmem, hmin, ?_, length_mapDelete_of_some k c.cache hget⟩
    unfold UrlCache.set
    simp only [if_pos hcap]
    unfold UrlCache.evictLeastUsed
    rw [hk]

/-- Projection fixture for eviction-scenario codes. -/
def df5 : String → UrlData := fun s => ⟨s, s, 0, none⟩

theorem cache_eviction_lru_witness :
    (insertAll (UrlCache.empty 2 5) 0 df5 ["a", "b", "c"]).cache.length = 2 :=
  (cache_eviction_lru 2 5 0 ["a", "b", "c"] df5 (by decide) (by decide) rfl).1

lemma length_generateShortCode_aux (bs : List Nat) :
    ∀ s : String,
      (bs.foldl (fun code b => code.push (alphabetChar b)) s).length =
        s.length + bs.length := by
  induction bs with
  | nil => intro s; simp
  | cons b rest ih =>
    intro s
    simp only [List.foldl_cons, List.length_cons]
    rw [ih, String.length_push]
    omega

lemma length_generateShortCode (bs : List Nat) :
    (generateShortCode bs).length = bs.length := by
  unfold generateShortCode
  rw [length_generateShortCode_aux]
  simp

lemma generateUniqueGo_fresh (rb : Nat → Nat → List Nat) (len : Nat)
    (S : List String) :
    ∀ (fuel i : Nat),
      (∃ j, j < fuel ∧ generateShortCode (rb (i + j) len) ∉ S) →
      generateUniqueGo rb len (fun code => decide (code ∈ S)) i fuel ∉ S := by
  intro fuel
  induction fuel with
  | zero =>
    intro i h
    obtain ⟨j, hj, _⟩ := h
    omega
  | succ fuel ih =>
    intro i h
    by_cases hc : generateShortCode (rb i len) ∈ S
    · have hnext : ∃ j, j < fuel ∧ generateShortCode (rb (i + 1 + j) len) ∉ S := by
        obtain ⟨j, hj, hfree⟩ := h
        cases j with
        | zero => exact absurd hc (by simpa using hfree)
        | succ j' =>
          refine ⟨j', by omega, ?_⟩
          have : i + 1 + j' = i + (j' + 1) := by omega
          rw [this]
          exact hfree
      simpa [generateUniqueGo, hc] using ih (i + 1) hnext
    · simp [generateUniqueGo, hc]
  
lemma generateUniqueGo_exhaust (rb : Nat → Nat → List Nat) (len : Nat)
    (S : List String) :
    ∀ (fuel i : Nat),
      (∀ j, j < fuel → generateShortCode (rb (i + j) len) ∈ S) →
      generateUniqueGo rb len (fun code => decide (code ∈ S)) i fuel =
        generateShortCode (rb (i + fuel) (len + 2)) := by
  intro fuel
  induction fuel with
  | zero => intro i _; simp [generateUniqueGo]
  | succ fuel ih =>
    intro i h
    have hc : generateShortCode (rb i len) ∈ S := by
      have := h 0 (by omega)
      simpa using this
    have hrec := ih (i + 1) (fun j hj => by
      have := h (j + 1) (by omega)
      have harith : i + (j + 1) = i + 1 + j := by omega
      rwa [harith] at this)
    have harith2 : i + 1 + fuel = i + (fuel + 1) := by omega
    rw [harith2] at hrec
    simpa [generateUniqueGo, hc] using hrec

/-- C3: `generateUniqueShortCode`, run against an existence predicate that
reports membership in the set `S` of codes already in the store: whenever
some attempt among the `maxRetries` draws produces a code outside `S`, the
returned code is not in `S`; when every one of the `maxRetries` draws
collides, the function returns one further draw at `codeLength + 2`
unconditionally — the result is that raw draw whether or not it lies in `S`
(the existence predicate is not consulted again), and under byte-exact
entropy (`randomBytes n` returns `n` bytes) it has length `codeLength + 2`. -/
theorem generateUnique_spec (rb : Nat → Nat → List Nat) (S : List String)
    (len maxR : Nat) (hrb : ∀ i n, (rb i n).length = n) :
    ((∃ i, i < maxR ∧ generateShortCode (rb i len) ∉ S) →
      generateUniqueShortCode rb len maxR (fun code => decide (code ∈ S)) ∉ S) ∧
    ((∀ i, i < maxR → generateShortCode (rb i len) ∈ S) →
      generateUniqueShortCode rb len maxR (fun code => decide (code ∈ S)) =
        generateShortCode (rb maxR (len + 2)) ∧
      (generateUniqueShortCode rb len maxR (fun code => decide (code ∈ S))).length =
        len + 2) := by
  constructor
  · intro h
    unfold generateUniqueShortCode
    exact generateUniqueGo_fresh rb len S maxR 0 (by simpa using h)
  · intro h
    unfold generateUniqueShortCode
    have heq := generateUniqueGo_exhaust rb len S maxR 0 (by simpa using h)
    rw [Nat.zero_add] at heq
    refine ⟨heq, ?_⟩
    rw [heq, length_generateShortCode, hrb]

/-- Entropy fixture: every `randomBytes(n)` call returns `n` zero bytes. -/
def rbZero : Nat → Nat → List Nat := fun _ n => List.replicate n 0

theorem generateUnique_spec_witness :
    generateUniqueShortCode rbZero 6 5 (fun code => decide (code ∈ ["aaaaaa"])) =
      "aaaaaaaa" := by
  have h := (generateUnique_spec rbZero ["aaaaaa"] 6 5
    (fun _ n => by simp [rbZero])).2 (fun i _ => by
      show generateShortCode (List.replicate 6 0) ∈ ["aaaaaa"]
      decide)
  rw [h.1]
  decide

/-- C7: whenever `createUrl` succeeds, a guest-owned record (`guestId` set and
no `userId`) gets `expiresAt = now + 7 days` no matter what `expiresAt` the
caller supplied, while a record with an authenticated owner gets exactly the
caller-provided `expiresAt` (and so `none` when none was provided). -/
theorem create_expiration_policy (validUrl : String → Bool)
    (rb : Nat → Nat → List Nat) (now : Nat) (st : Store) (freshId : Nat)
    (p : CreateParams) :
    ∀ url st', UrlService.createUrl validUrl rb now st freshId p = .ok (url, st') →
      ((p.guestId.isSome = true ∧ p.userId = none) →
        url.expiresAt = some (getGuestUrlExpirationDate now)) ∧
      (p.userId.isSome = true → url.expiresAt = p.expiresAt) := by
  intro url st' hok
  unfold UrlService.createUrl at hok
  by_cases hv : validUrl p.originalUrl
  · simp only [hv, Bool.not_true, Bool.false_eq_true, if_false] at hok
    cases hac : assignCode rb st p.customSlug with
    | error e =>
      rw [hac] at hok
      cases hok
    | ok sc =>
      rw [hac] at hok
      simp only [Except.ok.injEq, Prod.mk.injEq] at hok
      obtain ⟨hurl, _⟩ := hok
      subst hurl
      constructor
      · rintro ⟨hg1, hg2⟩
        simp [hg1, hg2]
      · intro hu
        cases hp : p.userId with
        | none =>
          rw [hp] at hu
          cases hu
        | some v =>
          cases he : p.expiresAt with
          | none => simp [hp, he]
          | some t => simp [hp, he]
  · simp only [hv, Bool.not_false, if_true] at hok
    cases hok

/-- Creation-parameter fixture: a guest creation that also supplies an
`expiresAt` (which the policy must override). -/
def pGuest : CreateParams :=
  { originalUrl := "https://example.com", customSlug := some "promo",
    userId := none, guestId := some "g1", expiresAt := some 123 }

/-- The record `createUrl` produces for `pGuest` at time 0 with `_id` 1. -/
def urlGuestRec : UrlRecord :=
  { originalUrl := "https://example.com", shortCode := "promo",
    customSlug := some "promo", userId := none, guestId := some "g1",
    clicks := 0, clickHistory := [], isActive := true,
    expiresAt := some 604800000, qrCode := none, createdAt := 0, id := 1 }

theorem create_expiration_policy_witness :
    urlGuestRec.expiresAt = some (getGuestUrlExpirationDate 0) :=
  ((create_expiration_policy (fun _ => true) rbZero 0 [] 1 pGuest)
    urlGuestRec [urlGuestRec] (by decide)).1 ⟨by decide, by decide⟩

/-- C9: a successful `updateUrl` changes at most `originalUrl`, `isActive`
and `expiresAt` of the matched record — the short code, owner identity,
clicks, click history and creation time are untouched — and stores exactly
that modified record; when no record matches `(shortCode, userId)` (in
particular when the code belongs to a different owner) the result is the
NotFound error and the store is unchanged. -/
theorem update_frame (st : Store) (c : UrlCache) (shortCode : String)
    (userId : Nat) (u : UrlUpdates) :
    (∀ url', (UrlService.updateUrl st c shortCode userId u).1 = .ok url' →
      ∃ url, Url.findOneByCodeAndUser st shortCode userId = some url ∧
        url ∈ st ∧
        url' = applyUpdates url u ∧
        url'.shortCode = url.shortCode ∧
        url'.userId = url.userId ∧
        url'.guestId = url.guestId ∧
        url'.clicks = url.clicks ∧
        url'.clickHistory = url.clickHistory ∧
        url'.createdAt = url.createdAt ∧
        (UrlService.updateUrl st c shortCode userId u).2.1 =
          replaceById st url.id url') ∧
    (Url.findOneByCodeAndUser st shortCode userId = none →
      (UrlService.updateUrl st c shortCode userId u).1 =
        .error (errors.notFound "URL not found or access denied") ∧
      (UrlService.updateUrl st c shortCode userId u).2.1 = st) := by
  constructor
  · intro url' hok
    unfold UrlService.updateUrl at hok ⊢
    cases hfind : Url.findOneByCodeAndUser st shortCode userId with
    | none =>
      rw [hfind] at hok
      cases hok
    | some url =>
      rw [hfind] at hok
      dsimp only
      simp only [Except.ok.injEq] at hok
      subst hok
      have hf := applyUpdates_frame url u
      exact ⟨url, rfl, List.mem_of_find?_eq_some hfind, rfl, hf.1, hf.2.1,
        hf.2.2.1, hf.2.2.2.1, hf.2.2.2.2.1, hf.2.2.2.2.2.1, rfl⟩
  · intro hnone
    unfold UrlService.updateUrl
    rw [hnone]
    exact ⟨rfl, rfl⟩

theorem update_frame_witness :
    (UrlService.updateUrl [rec1] cache0 "abc" 8 u0).1 =
      .error (errors.notFound "URL not found or access denied") ∧
    (UrlService.updateUrl [rec1] cache0 "abc" 8 u0).2.1 = [rec1] :=
  (update_frame [rec1] cache0 "abc" 8 u0).2 (by decide)

/-- C2 counterexample: on a store holding an active record that expired at
time 100, an uncached resolve at time 200 produces the error
`{message := "URL has expired", statusCode := 404, code := "NOT_FOUND"}` —
the very same kind (status 404, code NOT_FOUND) that `errors.notFound`
produces for an absent record.  The error kind is therefore NOT distinct from
NotFoundError; only the message differs.  (The `AppError` class has no
distinct expired kind, and the controller branch that would produce a 410
references an `AppError.gone` factory that does not exist.) -/
theorem expired_error_kind_counterexample :
    (UrlService.getByShortCode 200 [rec1] cache0 "abc").1 =
      .error ⟨"URL has expired", 404, "NOT_FOUND"⟩ ∧
    (errors.notFound "URL not found").statusCode = 404 ∧
    (errors.notFound "URL not found").code = "NOT_FOUND" ∧
    rec1.expiresAt = some 100 ∧ rec1.isActive = true ∧ (100 : Nat) < 200 := by
  refine ⟨by decide, rfl, rfl, rfl, rfl, by omega⟩

/-- C2 (amended): resolving a record that exists, is active, is not served
from the cache, and whose `expiresAt` is set and strictly in the past fails
with the error `errors.notFound "URL has expired"` — status 404 and kind
NOT_FOUND, the same kind as the absent-record error, distinguished only by
its message — even though the record is still physically present in the
store. -/
theorem expired_resolve_notfound_kind (now : Nat) (st : Store) (c : UrlCache)
    (shortCode : String) (url : UrlRecord) (e : Nat)
    (hcache : (UrlCache.get c now shortCode).1 = none)
    (hfind : Url.findByShortCode st shortCode = some url)
    (hexp : url.expiresAt = some e) (hlt : e < now) :
    (UrlService.getByShortCode now st c shortCode).1 =
      .error ⟨"URL has expired", 404, "NOT_FOUND"⟩ ∧
    url ∈ st := by
  refine ⟨?_, List.mem_of_find?_eq_some hfind⟩
  unfold UrlService.getByShortCode
  have hq : UrlCache.get c now shortCode =
      (none, (UrlCache.get c now shortCode).2) := by
    cases hqq : UrlCache.get c now shortCode with
    | mk a b =>
      rw [hqq] at hcache
      simp only at hcache
      rw [hcache]
  rw [hq]
  dsimp only
  rw [hfind]
  have hre : recordExpired url.expiresAt now = true := by
    rw [hexp]
    simp [recordExpired, hlt]
  dsimp only
  simp [hre, errors.notFound]

/-- Cache fixture for the amended-C2 witness: holds an entry for another
code, so `"abc"` is a miss. -/
def cacheOther : UrlCache := UrlCache.set cache0 10 "xyz" ⟨"https://o.com", "xyz", 2, none⟩

theorem expired_resolve_notfound_kind_witness :
    (UrlService.getByShortCode 200 [rec1] cacheOther "abc").1 =
      .error ⟨"URL has expired", 404, "NOT_FOUND"⟩ ∧
    rec1 ∈ ([rec1] : Store) :=
  expired_resolve_notfound_kind 200 [rec1] cacheOther "abc" rec1 100
    (by decide) (by decide) (by decide) (by omega)

/-- C1 (code bug): the cached projection `{originalUrl, shortCode, id}` drops
`expiresAt`, so once a record has been cached, resolves within the cache TTL
window return the original URL as a 301 success even after the record's
`expiresAt` has passed — the controller's post-cache expiry check can never
fire on a cached object, and the service checks `expiresAt` only on the
database path.  Concretely: the record expires at 100; a resolve at 50 caches
it; a resolve at 200 (record expired, cache entry still within its 1-hour
TTL) still succeeds with the original URL. -/
theorem resolve_serves_expired_from_cache :
    (redirectUrl 50 [rec1] cache0 "abc").1 = .ok "https://example.com" ∧
    (redirectUrl 200 [rec1] (redirectUrl 50 [rec1] cache0 "abc").2 "abc").1 =
      .ok "https://example.com" ∧
    rec1.expiresAt = some 100 ∧ (100 : Nat) < 200 ∧ 200 < 50 + cache0.ttl := by
  refine ⟨by decide, by decide, rfl, by omega, by decide⟩
